import Mathlib

/-!
Verification development for the unused-import remover (`src/main.py`).

The program parses a Python source file into a syntax tree, collects every
referenced identifier (bare names and dotted attribute chains), classifies
each import binding as unused when its effective local name is absent from
that set, and optionally rewrites the file by dropping the physical lines
of the unused imports.

The embedding below mirrors `main.py`:
  * `Node` models the Python AST shape the program inspects
    (`ast.Name`, `ast.Attribute`, `ast.Import`, `ast.ImportFrom`; every
    other node kind only contributes its child list, modelled by `other`).
    Inert leaf nodes that the program never matches (`ast.alias`,
    `ast.Load`, `ast.Store`) are omitted from child lists: they contribute
    no names and no records, and as queue leaves they do not change the
    relative breadth-first order of the remaining nodes.
  * `walkAux` models `ast.walk` (breadth-first queue traversal).
  * `collectAllNames` models the first loop (lines 64-78), with the Python
    set modelled as a list used only through membership.
  * `find_unused_imports` models lines 34-92; the external parser is a
    function argument, `none` standing for both the read-failure and the
    `SyntaxError` branches, each of which returns `([], None)`.
    Lines 87-88 of the source bind `end_col_offset`/`start_col_offset`
    to locals that are never used, so they have no counterpart here.
  * `extractStatement` models the slice expression on line 90, including
    its use of `node.lineno - 1` as a character index for `rfind`/`find`
    and Python's `s[a:-1]` semantics when `find` returns -1.  CPython line
    numbers are at least 1, so the truncated `lineno - 1` agrees with the
    Python integer arithmetic on all reachable inputs.
  * `readlines`, `remove_unused_imports`, `processFile` model lines
    94-130 and the orchestration in `main` (lines 159-161); the returned
    `List Char` is the file content after the call.
-/

set_option linter.unusedVariables false
set_option linter.unreachableTactic false
set_option linter.unusedTactic false

/-- One name bound by an import statement: `ast.alias(name, asname)`. -/
structure ImportAlias where
  name : String
  asname : Option String
deriving DecidableEq, Repr

/-- The fragment of the Python AST that `main.py` inspects.  `other` stands
for every node kind the program does not match on; only its children
matter for the traversal. -/
inductive Node where
  | name (id : String)
  | attr (value : Node) (attrName : String)
  | importNode (names : List ImportAlias) (lineno : Nat)
  | importFrom (module : Option String) (names : List ImportAlias) (lineno : Nat)
  | other (children : List Node)

/-- Children yielded by `ast.iter_child_nodes`, restricted to the node
kinds that can contribute names or records (see the module comment). -/
def Node.children : Node → List Node
  | .name _ => []
  | .attr v _ => [v]
  | .importNode _ _ => []
  | .importFrom _ _ _ => []
  | .other cs => cs

mutual
/-- Number of nodes in a tree (termination measure for the walk). -/
def Node.size : Node → Nat
  | .name _ => 1
  | .attr v _ => Node.size v + 1
  | .importNode _ _ => 1
  | .importFrom _ _ _ => 1
  | .other cs => Node.sizeList cs + 1

/-- Total number of nodes in a forest. -/
def Node.sizeList : List Node → Nat
  | [] => 0
  | n :: ns => Node.size n + Node.sizeList ns
end

theorem Node.sizeList_append (a b : List Node) :
    Node.sizeList (a ++ b) = Node.sizeList a + Node.sizeList b := by
  induction a with
  | nil => simp [Node.sizeList]
  | cons n t ih => simp [Node.sizeList, ih]; omega

theorem Node.size_pos (n : Node) : 0 < n.size := by
  cases n <;> simp [Node.size] <;> omega

theorem Node.sizeList_children_lt (n : Node) :
    Node.sizeList n.children < n.size := by
  cases n <;> simp [Node.children, Node.size, Node.sizeList] <;> omega

/-- `ast.walk`: breadth-first traversal driven by a FIFO queue; the queue
head is yielded and its children are appended to the back. -/
def walkAux : List Node → List Node
  | [] => []
  | n :: rest => n :: walkAux (rest ++ n.children)
termination_by q => Node.sizeList q
decreasing_by
  simp [Node.sizeList_append, Node.sizeList]
  have := Node.sizeList_children_lt n
  omega

/-- All nodes of the tree in the order `ast.walk` yields them. -/
def walkNodes (t : Node) : List Node := walkAux [t]

/-- Concatenated child lists of a queue (one breadth-first layer step). -/
def flatChildren : List Node → List Node
  | [] => []
  | n :: t => n.children ++ flatChildren t

/-- The `while isinstance(current_node, ast.Attribute)` loop of lines
70-78: build the dotted suffix right-to-left and, when the chain bottoms
out at a `Name`, return the full dotted string. -/
def chainString : Node → String → Option String
  | .attr v a, suffix => chainString v ("." ++ a ++ suffix)
  | .name id, suffix => some (id ++ suffix)
  | _, _ => none

/-- Names one visited node adds to `all_names` (lines 66-78): a bare
identifier for `Name` nodes, the full dotted string for `Attribute`
nodes whose chain roots in a `Name`, nothing otherwise. -/
def nameContrib : Node → List String
  | .name id => [id]
  | .attr v a =>
      match chainString (.attr v a) "" with
      | some s => [s]
      | none => []
  | _ => []

/-- Accumulate `nameContrib` over a node list in order (the first
`for node in ast.walk(tree)` loop). -/
def namesOver : List Node → List String
  | [] => []
  | n :: t => nameContrib n ++ namesOver t

/-- The `all_names` set of lines 64-78, as a list used only through
membership. -/
def collectAllNames (t : Node) : List String := namesOver (walkNodes t)

/-- Root identifier of an attribute chain, when the chain bottoms out at a
bare name. -/
def chainRoot : Node → Option String
  | .attr v _ => chainRoot v
  | .name id => some id
  | _ => none

/-- `alias.asname or alias.name` (line 84). CPython never produces an
empty-string `asname`, so the falsiness of `""` cannot fire. -/
def effectiveName (a : ImportAlias) : String := a.asname.getD a.name

/-- First index `i ≥ start` of `c` in `s` (helper for `str.find`). -/
def findCharAux : List Char → Char → Nat → Option Nat
  | [], _, _ => none
  | x :: xs, c, i => if x = c then some i else findCharAux xs c (i + 1)

/-- Python `content.find(c, start)` as an `Option` (Python returns -1 for
no match; callers below handle that case explicitly). -/
def str_find (s : List Char) (c : Char) (start : Nat) : Option Nat :=
  (findCharAux (s.drop start) c 0).map (· + start)

def lastIdxAux : List Char → Char → Nat → Option Nat → Option Nat
  | [], _, _, acc => acc
  | x :: xs, c, i, acc => lastIdxAux xs c (i + 1) (if x = c then some i else acc)

/-- Python `content.rfind(c, 0, stop)` as an `Option`: highest index of
`c` strictly below `stop`. -/
def str_rfind (s : List Char) (c : Char) (stop : Nat) : Option Nat :=
  lastIdxAux (s.take stop) c 0 none

/-- The slice expression on line 90 of `main.py`:

`content[content.rfind('\x7bn', 0, lineno-1)+1 : content.find('\x7bn', lineno-1)]`
when `lineno > 1`, else `content[: content.find('\x7bn', lineno-1)]`.

Note the program passes `lineno - 1` — a line number, not a character
offset — as the search positions.  `rfind` returning -1 makes the slice
start 0; `find` returning -1 makes the slice end -1, i.e. `length - 1`. -/
def extractStatement (content : List Char) (lineno : Nat) : List Char :=
  if lineno > 1 then
    let start := match str_rfind content '\n' (lineno - 1) with
      | some i => i + 1
      | none => 0
    let stop := match str_find content '\n' (lineno - 1) with
      | some j => j
      | none => content.length - 1
    (content.drop start).take (stop - start)
  else
    let stop := match str_find content '\n' (lineno - 1) with
      | some j => j
      | none => content.length - 1
    content.take stop

/-- Record produced for one alias of an import statement (lines 83-91):
`none` when the effective name is referenced, otherwise the
`(lineno, import_statement)` pair that gets appended. -/
def aliasRecord (content : List Char) (all_names : List String) (lineno : Nat)
    (a : ImportAlias) : Option (Nat × List Char) :=
  if effectiveName a ∈ all_names then none
  else some (lineno, extractStatement content lineno)

/-- Records contributed by one visited node in the second
`for node in ast.walk(tree)` loop (lines 81-91). -/
def recordsOfNode (content : List Char) (all_names : List String) :
    Node → List (Nat × List Char)
  | .importNode names lineno => names.filterMap (aliasRecord content all_names lineno)
  | .importFrom _ names lineno => names.filterMap (aliasRecord content all_names lineno)
  | _ => []

/-- Accumulate `recordsOfNode` over the walk order (the append-only
`unused_imports` list of lines 80-91). -/
def recordsOver (content : List Char) (all_names : List String) :
    List Node → List (Nat × List Char)
  | [] => []
  | n :: t => recordsOfNode content all_names n ++ recordsOver content all_names t

/-- `find_unused_imports` (lines 34-92).  `parse` is the external parser
(`ast.parse`); `content?` is the result of reading the file, `none`
standing for the `FileNotFoundError`/`IOError` branches.  A parse
failure (`SyntaxError`) returns `([], none)` exactly as lines 58-62 do.
The `aggressive` parameter is accepted and never read, as in the source. -/
def find_unused_imports (parse : List Char → Option Node)
    (content? : Option (List Char)) (aggressive : Bool) :
    List (Nat × List Char) × Option Node :=
  match content? with
  | none => ([], none)
  | some content =>
    match parse content with
    | none => ([], none)
    | some tree =>
        (recordsOver content (collectAllNames tree) (walkNodes tree), some tree)

/-- The binding (lineno, effective local name) an alias contributes when
classified unused — the same test as `aliasRecord`, before projecting to
the reported pair. -/
def aliasBinding (all_names : List String) (lineno : Nat) (a : ImportAlias) :
    Option (Nat × String) :=
  if effectiveName a ∈ all_names then none
  else some (lineno, effectiveName a)

def bindingsOfNode (all_names : List String) : Node → List (Nat × String)
  | .importNode names lineno => names.filterMap (aliasBinding all_names lineno)
  | .importFrom _ names lineno => names.filterMap (aliasBinding all_names lineno)
  | _ => []

def bindingsOver (all_names : List String) : List Node → List (Nat × String)
  | [] => []
  | n :: t => bindingsOfNode all_names n ++ bindingsOver all_names t

/-- The import bindings classified unused, with their effective names
(the records of `find_unused_imports` are the projection of this list,
see `recordsOver_eq_bindings`). -/
def unusedBindingsOf (t : Node) : List (Nat × String) :=
  bindingsOver (collectAllNames t) (walkNodes t)

/-- Python `file.readlines()`: split on `'\x7bn'`, keeping the terminator
with each line; a final line without a terminator is kept as-is.
Single-pass accumulator formulation (the accumulator holds the current
line, reversed). -/
def readlinesAux : List Char → List Char → List (List Char)
  | [], acc => if acc = [] then [] else [acc.reverse]
  | c :: rest, acc =>
      if c = '\n' then (acc.reverse ++ ['\n']) :: readlinesAux rest []
      else readlinesAux rest (c :: acc)

def readlines (s : List Char) : List (List Char) := readlinesAux s []

/-- `remove_unused_imports` (lines 94-130), returning the file content
after the call.  The empty-list early return (lines 104-106) and the
dry-run branch (lines 123-126) leave the content untouched; otherwise the
file is rewritten as the lines whose 1-based index is not in
`lines_to_remove` (the Python set is modelled as a list used only through
membership). -/
def remove_unused_imports (content : List Char)
    (unused_imports : List (Nat × List Char)) (dry_run : Bool) : List Char :=
  if unused_imports.isEmpty then content
  else
    let lines := readlines content
    let lines_to_remove : List Nat := unused_imports.map Prod.fst
    let new_lines :=
      ((lines.enumFrom 1).filter (fun p => decide (p.1 ∉ lines_to_remove))).map Prod.snd
    if dry_run then content else new_lines.flatten

/-- The detection-then-removal sequence of `main` (lines 159-161), on one
file whose content is `content`. -/
def processFile (parse : List Char → Option Node) (content : List Char)
    (dry_run aggressive : Bool) : List Char :=
  remove_unused_imports content
    (find_unused_imports parse (some content) aggressive).fst dry_run

/-- Is the node an import statement (`ast.Import` or `ast.ImportFrom`)? -/
def Node.isImport : Node → Bool
  | .importNode _ _ => true
  | .importFrom _ _ _ => true
  | _ => false

/-- Line number of an import statement node, `none` for other nodes. -/
def importLineno : Node → Option Nat
  | .importNode _ lineno => some lineno
  | .importFrom _ _ lineno => some lineno
  | _ => none

/-- Aliases bound by an import statement node. -/
def importNames : Node → List ImportAlias
  | .importNode names _ => names
  | .importFrom _ names _ => names
  | _ => []

/-- Line number field of an import node (0 for other nodes; unused there). -/
def nodeLineno : Node → Nat
  | .importNode _ lineno => lineno
  | .importFrom _ _ lineno => lineno
  | _ => 0

/-! ### Breadth-first walk: decomposition and closure lemmas -/

theorem walkAux_append : ∀ (q1 q2 : List Node),
    walkAux (q1 ++ q2) = q1 ++ walkAux (q2 ++ flatChildren q1) := by
  intro q1
  induction q1 with
  | nil => intro q2; simp [flatChildren, walkAux]
  | cons n t ih =>
      intro q2
      have h1 : (n :: t) ++ q2 = n :: (t ++ q2) := rfl
      rw [h1]
      rw [show walkAux (n :: (t ++ q2)) = n :: walkAux ((t ++ q2) ++ n.children) from by
        simp [walkAux]]
      rw [List.append_assoc t q2 n.children, ih (q2 ++ n.children)]
      simp [flatChildren, List.append_assoc]

theorem walkAux_eq (q : List Node) : walkAux q = q ++ walkAux (flatChildren q) := by
  have h := walkAux_append q []
  simpa using h

theorem mem_walkAux_self (q : List Node) (x : Node) (hx : x ∈ q) : x ∈ walkAux q := by
  rw [walkAux_eq]; exact List.mem_append.mpr (Or.inl hx)

theorem mem_flatChildren {q : List Node} {n c : Node}
    (hn : n ∈ q) (hc : c ∈ n.children) : c ∈ flatChildren q := by
  induction q with
  | nil => simp at hn
  | cons a t ih =>
      rcases List.mem_cons.mp hn with h | h
      · subst h; exact List.mem_append.mpr (Or.inl hc)
      · exact List.mem_append.mpr (Or.inr (ih h))

theorem sizeList_flatChildren : ∀ q : List Node,
    Node.sizeList (flatChildren q) + q.length ≤ Node.sizeList q := by
  intro q
  induction q with
  | nil => simp [flatChildren, Node.sizeList]
  | cons n t ih =>
      have h1 := Node.sizeList_children_lt n
      simp only [flatChildren, Node.sizeList_append, Node.sizeList, List.length_cons]
      omega

theorem walkAux_closed_fuel : ∀ (k : Nat) (q : List Node), Node.sizeList q ≤ k →
    ∀ n ∈ walkAux q, ∀ c ∈ n.children, c ∈ walkAux q := by
  intro k
  induction k with
  | zero =>
      intro q hq n hn c hc
      cases q with
      | nil => simp [walkAux] at hn
      | cons a t =>
          exfalso
          have := Node.size_pos a
          simp [Node.sizeList] at hq
          omega
  | succ k ih =>
      intro q hq n hn c hc
      rw [walkAux_eq] at hn ⊢
      rcases List.mem_append.mp hn with h | h
      · exact List.mem_append.mpr
          (Or.inr (mem_walkAux_self _ _ (mem_flatChildren h hc)))
      · cases q with
        | nil => simp [flatChildren, walkAux] at h
        | cons a t =>
            have h1 := sizeList_flatChildren (a :: t)
            have hlt : Node.sizeList (flatChildren (a :: t)) ≤ k := by
              simp [List.length_cons] at h1
              omega
            exact List.mem_append.mpr (Or.inr (ih _ hlt n h c hc))

theorem walkAux_closed (q : List Node) (n : Node) (hn : n ∈ walkAux q)
    (c : Node) (hc : c ∈ n.children) : c ∈ walkAux q :=
  walkAux_closed_fuel (Node.sizeList q) q le_rfl n hn c hc

theorem chainRoot_mem_walk_fuel : ∀ (k : Nat) (m : Node), Node.size m ≤ k →
    ∀ (id : String) (q : List Node),
    chainRoot m = some id → m ∈ walkAux q → Node.name id ∈ walkAux q := by
  intro k
  induction k with
  | zero =>
      intro m hm
      exfalso
      have := Node.size_pos m
      omega
  | succ k ih =>
      intro m hm id q h hq
      cases m with
      | name i =>
          simp [chainRoot] at h
          subst h; exact hq
      | attr v a =>
          have hv : v ∈ walkAux q :=
            walkAux_closed q _ hq v (by simp [Node.children])
          have hsz : Node.size v ≤ k := by
            simp [Node.size] at hm; omega
          exact ih v hsz id q (by simpa [chainRoot] using h) hv
      | importNode ns l => simp [chainRoot] at h
      | importFrom mo ns l => simp [chainRoot] at h
      | other cs => simp [chainRoot] at h

theorem chainRoot_mem_walk (m : Node) (id : String) (q : List Node)
    (h : chainRoot m = some id) (hm : m ∈ walkAux q) : Node.name id ∈ walkAux q :=
  chainRoot_mem_walk_fuel (Node.size m) m le_rfl id q h hm

/-! ### Records, names and bindings -/

theorem recordsOver_append (c : List Char) (an : List String) (a b : List Node) :
    recordsOver c an (a ++ b) = recordsOver c an a ++ recordsOver c an b := by
  induction a with
  | nil => simp [recordsOver]
  | cons n t ih => simp [recordsOver, ih]

theorem recordsOfNode_eq_nil (c : List Char) (an : List String) (n : Node)
    (h : n.isImport = false) : recordsOfNode c an n = [] := by
  cases n with
  | importNode ns l => simp [Node.isImport] at h
  | importFrom m ns l => simp [Node.isImport] at h
  | name i => rfl
  | attr v a => rfl
  | other cs => rfl

theorem recordsOver_eq_nil (c : List Char) (an : List String) (l : List Node)
    (h : ∀ n ∈ l, Node.isImport n = false) : recordsOver c an l = [] := by
  induction l with
  | nil => rfl
  | cons n t ih =>
      simp [recordsOver, recordsOfNode_eq_nil c an n (h n (List.mem_cons_self n t)),
        ih (fun m hm => h m (List.mem_cons_of_mem n hm))]

theorem recordsAliases_eq (c : List Char) (an : List String) (L : Nat) :
    ∀ ns : List ImportAlias,
    ns.filterMap (aliasRecord c an L)
      = (ns.filterMap (aliasBinding an L)).map (fun p => (p.1, extractStatement c p.1)) := by
  intro ns
  induction ns with
  | nil => rfl
  | cons a t ih =>
      by_cases h : effectiveName a ∈ an <;>
        simp [List.filterMap_cons, aliasRecord, aliasBinding, h, ih]

theorem recordsOfNode_eq_bindings (c : List Char) (an : List String) (n : Node) :
    recordsOfNode c an n
      = (bindingsOfNode an n).map (fun p => (p.1, extractStatement c p.1)) := by
  cases n with
  | importNode ns L => exact recordsAliases_eq c an L ns
  | importFrom m ns L => exact recordsAliases_eq c an L ns
  | name i => rfl
  | attr v a => rfl
  | other cs => rfl

theorem recordsOver_eq_bindings (c : List Char) (an : List String) :
    ∀ l : List Node,
    recordsOver c an l
      = (bindingsOver an l).map (fun p => (p.1, extractStatement c p.1)) := by
  intro l
  induction l with
  | nil => rfl
  | cons n t ih =>
      simp only [recordsOver, bindingsOver, List.map_append, ih,
        recordsOfNode_eq_bindings]

theorem aliasBinding_some {an : List String} {L : Nat} {a : ImportAlias}
    {p : Nat × String} (h : aliasBinding an L a = some p) :
    p = (L, effectiveName a) ∧ effectiveName a ∉ an := by
  unfold aliasBinding at h
  split at h
  next hmem => exact absurd h (by simp)
  next hmem => cases h; exact ⟨rfl, hmem⟩

theorem bindingsOfNode_not_mem {an : List String} {n : Node} {p : Nat × String}
    (h : p ∈ bindingsOfNode an n) : p.2 ∉ an := by
  cases n with
  | importNode ns L =>
      rcases List.mem_filterMap.mp h with ⟨a, ha, hEq⟩
      rcases aliasBinding_some hEq with ⟨hp, hmem⟩
      rw [hp]; exact hmem
  | importFrom m ns L =>
      rcases List.mem_filterMap.mp h with ⟨a, ha, hEq⟩
      rcases aliasBinding_some hEq with ⟨hp, hmem⟩
      rw [hp]; exact hmem
  | name i => simp [bindingsOfNode] at h
  | attr v a => simp [bindingsOfNode] at h
  | other cs => simp [bindingsOfNode] at h

theorem bindingsOver_not_mem {an : List String} :
    ∀ {l : List Node} {p : Nat × String}, p ∈ bindingsOver an l → p.2 ∉ an := by
  intro l
  induction l with
  | nil => intro p h; simp [bindingsOver] at h
  | cons n t ih =>
      intro p h
      rcases List.mem_append.mp h with h | h
      · exact bindingsOfNode_not_mem h
      · exact ih h

theorem name_mem_namesOver {id : String} : ∀ {l : List Node},
    Node.name id ∈ l → id ∈ namesOver l := by
  intro l
  induction l with
  | nil => intro h; simp at h
  | cons n t ih =>
      intro h
      rcases List.mem_cons.mp h with h | h
      · exact List.mem_append.mpr (Or.inl (by rw [← h]; simp [nameContrib]))
      · exact List.mem_append.mpr (Or.inr (ih h))

theorem mem_recordsOver_of {c : List Char} {an : List String} {n : Node}
    {x : Nat × List Char} : ∀ {l : List Node},
    n ∈ l → x ∈ recordsOfNode c an n → x ∈ recordsOver c an l := by
  intro l
  induction l with
  | nil => intro h; simp at h
  | cons m t ih =>
      intro h hx
      rcases List.mem_cons.mp h with h | h
      · exact List.mem_append.mpr (Or.inl (h ▸ hx))
      · exact List.mem_append.mpr (Or.inr (ih h hx))

theorem aliasRecord_fst {c : List Char} {an : List String} {L : Nat}
    {a : ImportAlias} {r : Nat × List Char} (h : aliasRecord c an L a = some r) :
    r.1 = L := by
  unfold aliasRecord at h
  split at h
  next => exact absurd h (by simp)
  next => cases h; rfl

theorem recordsOfNode_fst {c : List Char} {an : List String} {n : Node}
    {r : Nat × List Char} (h : r ∈ recordsOfNode c an n) :
    importLineno n = some r.1 := by
  cases n with
  | importNode ns L =>
      rcases List.mem_filterMap.mp h with ⟨a, ha, hEq⟩
      rw [aliasRecord_fst hEq]; rfl
  | importFrom m ns L =>
      rcases List.mem_filterMap.mp h with ⟨a, ha, hEq⟩
      rw [aliasRecord_fst hEq]; rfl
  | name i => simp [recordsOfNode] at h
  | attr v a => simp [recordsOfNode] at h
  | other cs => simp [recordsOfNode] at h

theorem recordsOfNode_eq_nil_of_none {c : List Char} {an : List String} {n : Node}
    (h : importLineno n = none) : recordsOfNode c an n = [] := by
  cases n with
  | importNode ns L => simp [importLineno] at h
  | importFrom m ns L => simp [importLineno] at h
  | name i => rfl
  | attr v a => rfl
  | other cs => rfl

theorem recordsOver_fst_mem {c : List Char} {an : List String} :
    ∀ {l : List Node} {r : Nat × List Char}, r ∈ recordsOver c an l →
    r.1 ∈ l.filterMap importLineno := by
  intro l
  induction l with
  | nil => intro r h; simp [recordsOver] at h
  | cons n t ih =>
      intro r h
      rcases List.mem_append.mp h with h | h
      · exact List.mem_filterMap.mpr ⟨n, List.mem_cons_self n t, recordsOfNode_fst h⟩
      · rcases List.mem_filterMap.mp (ih h) with ⟨m, hm, hEq⟩
        exact List.mem_filterMap.mpr ⟨m, List.mem_cons_of_mem n hm, hEq⟩

theorem pairwise_const_le {m : List Nat} {a : Nat} (h : ∀ x ∈ m, x = a) :
    m.Pairwise (· ≤ ·) := by
  induction m with
  | nil => exact List.Pairwise.nil
  | cons x t ih =>
      refine List.Pairwise.cons ?_ (ih fun y hy => h y (List.mem_cons_of_mem x hy))
      intro y hy
      rw [h x (List.mem_cons_self x t), h y (List.mem_cons_of_mem x hy)]

theorem pairwise_recordsOver {c : List Char} {an : List String} :
    ∀ {l : List Node},
    (l.filterMap importLineno).Pairwise (· ≤ ·) →
    ((recordsOver c an l).map Prod.fst).Pairwise (· ≤ ·) := by
  intro l
  induction l with
  | nil => intro h; simp [recordsOver]
  | cons n t ih =>
      intro h
      have hmap : (recordsOver c an (n :: t)).map Prod.fst
          = (recordsOfNode c an n).map Prod.fst
            ++ (recordsOver c an t).map Prod.fst := by
        simp [recordsOver]
      rw [hmap, List.pairwise_append]
      cases hno : importLineno n with
      | none =>
          have hnil := @recordsOfNode_eq_nil_of_none c an n hno
          rw [List.filterMap_cons_none hno] at h
          refine ⟨by simp [hnil], ih h, ?_⟩
          intro x hx
          rw [hnil] at hx
          simp at hx
      | some L =>
          rw [List.filterMap_cons_some hno] at h
          rcases List.pairwise_cons.mp h with ⟨hall, htail⟩
          have hfst : ∀ x ∈ (recordsOfNode c an n).map Prod.fst, x = L := by
            intro x hx
            rcases List.mem_map.mp hx with ⟨r, hr, hx⟩
            have := recordsOfNode_fst hr
            rw [hno] at this
            cases this
            exact hx.symm ▸ rfl
          refine ⟨pairwise_const_le hfst, ih htail, ?_⟩
          intro x hx y hy
          rw [hfst x hx]
          rcases List.mem_map.mp hy with ⟨r, hr, hy⟩
          have := recordsOver_fst_mem hr
          rw [← hy]
          exact hall _ this

/-! ### Lines: readlines, flatten, and the shape of line lists -/

theorem flatten_readlinesAux : ∀ (s acc : List Char),
    (readlinesAux s acc).flatten = acc.reverse ++ s := by
  intro s
  induction s with
  | nil =>
      intro acc
      by_cases h : acc = [] <;> simp [readlinesAux, h]
  | cons c rest ih =>
      intro acc
      by_cases h : c = '\n'
      · subst h; simp [readlinesAux, ih]
      · simp [readlinesAux, h, ih]

theorem readlines_flatten_self (s : List Char) : (readlines s).flatten = s := by
  simpa using flatten_readlinesAux s []

/-- A well-formed physical line: nonempty, and `'\x7bn'` occurs at most as
its final character. -/
def IsLine (l : List Char) : Prop :=
  l ≠ [] ∧ ∀ c ∈ l.dropLast, c ≠ '\n'

/-- Shape of a `readlines` result: each entry is a line, and every entry
except possibly the last ends with `'\x7bn'`. -/
def ProperLines : List (List Char) → Prop
  | [] => True
  | l :: rest => IsLine l ∧ (rest = [] ∨ (l.getLast? = some '\n' ∧ ProperLines rest))

theorem properLines_readlinesAux : ∀ (s acc : List Char),
    (∀ c ∈ acc, c ≠ '\n') → ProperLines (readlinesAux s acc) := by
  intro s
  induction s with
  | nil =>
      intro acc hacc
      by_cases h : acc = []
      · simp [readlinesAux, h, ProperLines]
      · simp only [readlinesAux, if_neg h]
        refine ⟨⟨by simpa using h, ?_⟩, Or.inl rfl⟩
        intro d hd
        have hmem : d ∈ acc.reverse := (List.dropLast_sublist _).subset hd
        exact hacc d (List.mem_reverse.mp hmem)
  | cons c rest ih =>
      intro acc hacc
      by_cases h : c = '\n'
      · subst h
        simp only [readlinesAux, if_pos rfl]
        refine ⟨⟨by simp, ?_⟩, Or.inr ⟨by simp, ih [] (by simp)⟩⟩
        intro d hd
        simp only [List.dropLast_concat] at hd
        exact hacc d (List.mem_reverse.mp hd)
      · simp only [readlinesAux, if_neg h]
        refine ih (c :: acc) ?_
        intro d hd
        rcases List.mem_cons.mp hd with h1 | h1
        · subst h1; exact h
        · exact hacc d h1

theorem properLines_readlines (s : List Char) : ProperLines (readlines s) :=
  properLines_readlinesAux s [] (by simp)

theorem readlinesAux_skip : ∀ (m : List Char), (∀ c ∈ m, c ≠ '\n') →
    ∀ (r acc : List Char), readlinesAux (m ++ r) acc = readlinesAux r (m.reverse ++ acc) := by
  intro m
  induction m with
  | nil => intro h r acc; simp
  | cons c t ih =>
      intro h r acc
      have hc : c ≠ '\n' := h c (List.mem_cons_self c t)
      simp only [List.cons_append, readlinesAux, if_neg hc, List.append_eq]
      rw [ih (fun d hd => h d (List.mem_cons_of_mem c hd)) r (c :: acc)]
      simp [List.append_assoc]

theorem readlines_line_cons (m r : List Char) (hm : ∀ c ∈ m, c ≠ '\n') :
    readlines (m ++ '\n' :: r) = (m ++ ['\n']) :: readlines r := by
  unfold readlines
  rw [readlinesAux_skip m hm ('\n' :: r) []]
  simp [readlinesAux]

theorem readlines_single (m : List Char) (hm : ∀ c ∈ m, c ≠ '\n') (hne : m ≠ []) :
    readlines m = [m] := by
  have h := readlinesAux_skip m hm [] []
  simp only [List.append_nil] at h
  unfold readlines
  rw [h]
  simp [readlinesAux, hne]

theorem isLine_decomp {l : List Char} (hne : l ≠ []) (hlast : l.getLast? = some '\n') :
    l = l.dropLast ++ ['\n'] := by
  have h1 := List.dropLast_append_getLast hne
  have h2 : l.getLast hne = '\n' := by
    rw [List.getLast?_eq_getLast l hne] at hlast
    exact Option.some.inj hlast
  rw [h2] at h1
  exact h1.symm

theorem all_ne_newline {l : List Char} (hne : l ≠ [])
    (hint : ∀ c ∈ l.dropLast, c ≠ '\n') (hlast : l.getLast? ≠ some '\n') :
    ∀ c ∈ l, c ≠ '\n' := by
  intro c hc
  rw [← List.dropLast_append_getLast hne] at hc
  rcases List.mem_append.mp hc with h | h
  · exact hint c h
  · have hcl : c = l.getLast hne := by simpa using h
    subst hcl
    intro hEq
    apply hlast
    rw [List.getLast?_eq_getLast l hne, hEq]

theorem readlines_flatten : ∀ ls : List (List Char), ProperLines ls →
    readlines ls.flatten = ls := by
  intro ls
  induction ls with
  | nil => intro h; simp [readlines, readlinesAux]
  | cons l rest ih =>
      intro h
      rcases h with ⟨⟨hne, hint⟩, hrest⟩
      rcases hrest with hnil | ⟨hlast, hrest⟩
      · subst hnil
        simp only [List.flatten_cons, List.flatten_nil, List.append_nil]
        by_cases hl : l.getLast? = some '\n'
        · have hdec := isLine_decomp hne hl
          rw [show l = l.dropLast ++ '\n' :: [] from by simpa using hdec,
            readlines_line_cons _ _ hint]
          simp [readlines, readlinesAux]
        · exact readlines_single l (all_ne_newline hne hint hl) hne
      · have hdec := isLine_decomp hne hlast
        rw [show (l :: rest).flatten = l.dropLast ++ '\n' :: rest.flatten from by
          conv_lhs => rw [List.flatten_cons, hdec]
          simp [List.append_assoc]]
        rw [readlines_line_cons _ _ hint, ih hrest, ← hdec]

theorem properLines_tail {l : List Char} {rest : List (List Char)}
    (h : ProperLines (l :: rest)) (hne : rest ≠ []) : ProperLines rest := by
  rcases h with ⟨h1, h2 | ⟨h2, h3⟩⟩
  · exact absurd h2 hne
  · exact h3

theorem properLines_sublist : ∀ {l1 l2 : List (List Char)}, List.Sublist l1 l2 →
    ProperLines l2 → ProperLines l1 := by
  intro l1 l2 hs
  induction hs with
  | slnil => intro h; exact h
  | cons a hs ih =>
      intro h
      rcases h with ⟨h1, h2 | ⟨h2, h3⟩⟩
      · subst h2
        have hl : _ = ([] : List (List Char)) := List.sublist_nil.mp hs
        rw [hl]; trivial
      · exact ih h3
  | cons₂ a hs ih =>
      intro h
      rcases h with ⟨h1, h2 | ⟨h2, h3⟩⟩
      · subst h2
        have hl : _ = ([] : List (List Char)) := List.sublist_nil.mp hs
        rw [hl]; exact ⟨h1, Or.inl rfl⟩
      · rename_i l1' l2'
        by_cases hnil : l1' = []
        · subst hnil; exact ⟨h1, Or.inl rfl⟩
        · exact ⟨h1, Or.inr ⟨h2, ih h3⟩⟩

theorem enumFrom_snd {α : Type} : ∀ (i : Nat) (l : List α),
    (List.enumFrom i l).map Prod.snd = l := by
  intro i l
  induction l generalizing i with
  | nil => rfl
  | cons a t ih => simp [List.enumFrom, ih]

theorem kept_sublist (lines : List (List Char)) (pred : Nat × List Char → Bool) :
    List.Sublist (((lines.enumFrom 1).filter pred).map Prod.snd) lines := by
  have h1 : List.Sublist ((lines.enumFrom 1).filter pred) (lines.enumFrom 1) :=
    List.filter_sublist _
  have h2 := h1.map Prod.snd
  rw [enumFrom_snd 1 lines] at h2
  exact h2

theorem remove_not_dry (content : List Char)
    (unused : List (Nat × List Char)) (h : unused ≠ []) :
    remove_unused_imports content unused false
      = ((((readlines content).enumFrom 1).filter
          (fun p => decide (p.1 ∉ unused.map Prod.fst))).map Prod.snd).flatten := by
  unfold remove_unused_imports
  rw [if_neg (by simp [h])]
  rfl

theorem remove_lines (content : List Char)
    (unused : List (Nat × List Char)) (h : unused ≠ []) :
    readlines (remove_unused_imports content unused false)
      = (((readlines content).enumFrom 1).filter
          (fun p => decide (p.1 ∉ unused.map Prod.fst))).map Prod.snd := by
  rw [remove_not_dry content unused h]
  exact readlines_flatten _
    (properLines_sublist (kept_sublist _ _) (properLines_readlines content))

/-! ### Concrete inputs: file contents and the trees CPython parses them to -/

/-- Content `import os\x7bnl\x7dimport sys\x7bnl\x7d` (two unused imports). -/
def c1content : List Char := "import os\nimport sys\n".toList

/-- Tree for `c1content`: `Module([Import([os], lineno 1), Import([sys], lineno 2)])`. -/
def c1tree : Node :=
  .other [.importNode [⟨"os", none⟩] 1, .importNode [⟨"sys", none⟩] 2]

def parse1 : List Char → Option Node :=
  fun s => if s = c1content then some c1tree else none

/-- Content with an import nested in a function body before a top-level one. -/
def c2content : List Char := "def f():\n    import json\nimport os\n".toList

/-- Tree for `c2content`: `Module([FunctionDef(f, args,
[Import([json], lineno 2)]), Import([os], lineno 3)])`. -/
def c2tree : Node :=
  .other [.other [.other [], .importNode [⟨"json", none⟩] 2],
    .importNode [⟨"os", none⟩] 3]

def parse2 : List Char → Option Node :=
  fun s => if s = c2content then some c2tree else none

/-- Content where the imported name `os` is referenced as a bare name. -/
def c3content : List Char := "import os\nx = os\n".toList

/-- Tree for `c3content`: `Module([Import([os], lineno 1),
Assign([Name(x)], Name(os))])`. -/
def c3tree : Node :=
  .other [.importNode [⟨"os", none⟩] 1, .other [.name "x", .name "os"]]

def parse3 : List Char → Option Node :=
  fun s => if s = c3content then some c3tree else none

/-- A syntactically invalid content (parser yields no tree). -/
def c6content : List Char := "def f(:\n".toList

/-- Parser that rejects every content (`SyntaxError` path). -/
def parse6 : List Char → Option Node := fun _ => none

/-- Content with no import statement at all. -/
def c7content : List Char := "x = 1\n".toList

/-- Tree for `c7content`: `Module([Assign([Name(x)], Constant(1))])`. -/
def c7tree : Node := .other [.other [.name "x", .other []]]

def parse7 : List Char → Option Node :=
  fun s => if s = c7content then some c7tree else none

/-- Content whose first physical line holds an unused import and, after a
semicolon, a reference that keeps the second import alive. -/
def c8content : List Char := "import a;b\nimport b\n".toList

/-- Tree for `c8content`: `Module([Import([a], lineno 1),
Expr(Name(b), lineno 1), Import([b], lineno 2)])`. -/
def c8tree : Node :=
  .other [.importNode [⟨"a", none⟩] 1, .other [.name "b"],
    .importNode [⟨"b", none⟩] 2]

/-- `c8content` after the first non-dry run removes line 1. -/
def c8once : List Char := "import b\n".toList

/-- Tree for `c8once`: `Module([Import([b], lineno 1)])`. -/
def c8tree2 : Node := .other [.importNode [⟨"b", none⟩] 1]

def parse8 : List Char → Option Node :=
  fun s =>
    if s = c8content then some c8tree
    else if s = c8once then some c8tree2 else none

/-- Content with a two-name import line, one name used and one unused. -/
def c10content : List Char := "import os, sys\nprint(os.getcwd())\n".toList

/-- Tree for `c10content`: `Module([Import([os, sys], lineno 1),
Expr(Call(Name(print), [Call(Attribute(Name(os), getcwd), [])]))])`. -/
def c10tree : Node :=
  .other [.importNode [⟨"os", none⟩, ⟨"sys", none⟩] 1,
    .other [.other [.name "print", .other [.attr (.name "os") "getcwd"]]]]

def parse10 : List Char → Option Node :=
  fun s => if s = c10content then some c10tree else none

/-! ### Walk evaluations for the concrete trees -/

theorem walk_c1 : walkNodes c1tree = [c1tree,
    .importNode [⟨"os", none⟩] 1, .importNode [⟨"sys", none⟩] 2] := by
  simp [walkNodes, walkAux, c1tree, Node.children]

theorem walk_c2 : walkNodes c2tree = [c2tree,
    .other [.other [], .importNode [⟨"json", none⟩] 2],
    .importNode [⟨"os", none⟩] 3,
    .other [], .importNode [⟨"json", none⟩] 2] := by
  simp [walkNodes, walkAux, c2tree, Node.children]

theorem walk_c3 : walkNodes c3tree = [c3tree,
    .importNode [⟨"os", none⟩] 1, .other [.name "x", .name "os"],
    .name "x", .name "os"] := by
  simp [walkNodes, walkAux, c3tree, Node.children]

theorem walk_c7 : walkNodes c7tree = [c7tree,
    .other [.name "x", .other []], .name "x", .other []] := by
  simp [walkNodes, walkAux, c7tree, Node.children]

theorem walk_c8 : walkNodes c8tree = [c8tree,
    .importNode [⟨"a", none⟩] 1, .other [.name "b"],
    .importNode [⟨"b", none⟩] 2, .name "b"] := by
  simp [walkNodes, walkAux, c8tree, Node.children]

theorem walk_c8b : walkNodes c8tree2 = [c8tree2, .importNode [⟨"b", none⟩] 1] := by
  simp [walkNodes, walkAux, c8tree2, Node.children]

theorem walk_c10 : walkNodes c10tree = [c10tree,
    .importNode [⟨"os", none⟩, ⟨"sys", none⟩] 1,
    .other [.other [.name "print", .other [.attr (.name "os") "getcwd"]]],
    .other [.name "print", .other [.attr (.name "os") "getcwd"]],
    .name "print", .other [.attr (.name "os") "getcwd"],
    .attr (.name "os") "getcwd", .name "os"] := by
  simp [walkNodes, walkAux, c10tree, Node.children]

/-! ### Claims -/

/-- C1: the claim says every unused-import record pairs the statement's
starting line number with the literal text of the physical source line at
that line number.  The code instead passes `lineno - 1` to `str.rfind`/
`str.find` as a character offset (line 90), so for the unused import on
line 2 of `c1content` it records the text of line 1 (`import os`) instead
of line 2 (`import sys`).  This theorem evaluates the code at that failing
input: the record for line 2 carries `import os`, the actual line 2 is
`import sys`, and the correctly-paired record is absent. -/
theorem c1_record_text_bug :
    (find_unused_imports parse1 (some c1content) false).fst
        = [(1, "import os".toList), (2, "import os".toList)]
      ∧ (readlines c1content)[1]? = some ("import sys\n".toList)
      ∧ (2, "import sys".toList) ∉ (find_unused_imports parse1 (some c1content) false).fst := by
  have hp : parse1 c1content = some c1tree := rfl
  have h1 : (find_unused_imports parse1 (some c1content) false).fst
      = [(1, "import os".toList), (2, "import os".toList)] := by
    simp only [find_unused_imports, hp, collectAllNames]
    rw [walk_c1]
    decide
  refine ⟨h1, by decide, ?_⟩
  rw [h1]
  decide

/-- C2 counterexample: on `c2content` the import nested inside the
function body (line 2) is reported after the top-level import on line 3,
because `ast.walk` is breadth-first; the record list is not ordered by
source position. -/
theorem c2_counterexample :
    (find_unused_imports parse2 (some c2content) false).fst.map Prod.fst = [3, 2]
      ∧ ¬ ((find_unused_imports parse2 (some c2content) false).fst.map
            Prod.fst).Pairwise (· ≤ ·) := by
  have hp : parse2 c2content = some c2tree := rfl
  have h1 : (find_unused_imports parse2 (some c2content) false).fst.map Prod.fst
      = [3, 2] := by
    simp only [find_unused_imports, hp, collectAllNames]
    rw [walk_c2]
    decide
  exact ⟨h1, by rw [h1]; decide⟩

/-- C2 (amended): the records follow the breadth-first walk, so source
order holds when every import statement is a top-level statement of the
module (no import occurs below the module body) and the module body's
line numbers of its imports are nondecreasing; then the reported line numbers are
nondecreasing, top to bottom. -/
theorem c2_toplevel_order (parse : List Char → Option Node) (content : List Char)
    (body : List Node) (agg : Bool)
    (hp : parse content = some (Node.other body))
    (hnest : ∀ n ∈ walkAux (flatChildren body), Node.isImport n = false)
    (hsort : (body.filterMap importLineno).Pairwise (· ≤ ·)) :
    ((find_unused_imports parse (some content) agg).fst.map Prod.fst).Pairwise
      (· ≤ ·) := by
  simp only [find_unused_imports, hp]
  have hw : walkNodes (Node.other body) = Node.other body :: walkAux body := by
    simp [walkNodes, walkAux, Node.children]
  rw [hw, walkAux_eq body]
  have hsplit : ∀ an : List String,
      recordsOver content an (Node.other body :: (body ++ walkAux (flatChildren body)))
        = recordsOver content an body := by
    intro an
    have h1 : recordsOver content an (walkAux (flatChildren body)) = [] :=
      recordsOver_eq_nil content an _ hnest
    simp [recordsOver, recordsOfNode, recordsOver_append, h1]
  rw [hsplit]
  exact pairwise_recordsOver hsort

/-- C2 witness: the amended ordering theorem applied to `c1content`, whose
two imports are both top-level with increasing line numbers. -/
theorem c2_witness :
    parse1 c1content = some (Node.other [Node.importNode [⟨"os", none⟩] 1,
        Node.importNode [⟨"sys", none⟩] 2])
      ∧ (∀ n ∈ walkAux (flatChildren [Node.importNode [⟨"os", none⟩] 1,
          Node.importNode [⟨"sys", none⟩] 2]), Node.isImport n = false)
      ∧ (([Node.importNode [⟨"os", none⟩] 1,
          Node.importNode [⟨"sys", none⟩] 2].filterMap importLineno).Pairwise (· ≤ ·))
      ∧ ((find_unused_imports parse1 (some c1content) false).fst.map Prod.fst).Pairwise
          (· ≤ ·) := by
  refine ⟨rfl, ?_, by decide, ?_⟩
  · simp [flatChildren, Node.children, walkAux]
  · exact c2_toplevel_order parse1 c1content _ false rfl
      (by simp [flatChildren, Node.children, walkAux]) (by decide)

/-- C3: when an import binding's effective local name occurs elsewhere in
the file as a bare identifier node, or as the root identifier of an
attribute chain, that binding is classified used and is never among the
unused bindings that generate the records of `find_unused_imports` (whose
record list is exactly the projection of `unusedBindingsOf`). -/
theorem c3_referenced_never_reported (parse : List Char → Option Node)
    (content : List Char) (tree : Node) (agg : Bool) (id : String)
    (hp : parse content = some tree)
    (href : Node.name id ∈ walkNodes tree
      ∨ ∃ m ∈ walkNodes tree, chainRoot m = some id) :
    (find_unused_imports parse (some content) agg).fst
        = (unusedBindingsOf tree).map (fun p => (p.1, extractStatement content p.1))
      ∧ ∀ p ∈ unusedBindingsOf tree, p.2 ≠ id := by
  have hname : Node.name id ∈ walkNodes tree := by
    rcases href with h | ⟨m, hm, hroot⟩
    · exact h
    · exact chainRoot_mem_walk m id [tree] hroot hm
  have hmem : id ∈ collectAllNames tree := name_mem_namesOver hname
  constructor
  · simp only [find_unused_imports, hp]
    exact recordsOver_eq_bindings content (collectAllNames tree) (walkNodes tree)
  · intro p hp2 hEq
    have hnot := bindingsOver_not_mem hp2
    rw [hEq] at hnot
    exact hnot hmem

/-- C3 witness: on `c3content` the name `os` is referenced (bare) on
line 2, so no unused binding carries the name `os`. -/
theorem c3_witness :
    parse3 c3content = some c3tree
      ∧ Node.name "os" ∈ walkNodes c3tree
      ∧ ((find_unused_imports parse3 (some c3content) false).fst
          = (unusedBindingsOf c3tree).map
              (fun p => (p.1, extractStatement c3content p.1))
        ∧ ∀ p ∈ unusedBindingsOf c3tree, p.2 ≠ "os") := by
  have h2 : Node.name "os" ∈ walkNodes c3tree := by rw [walk_c3]; simp
  exact ⟨rfl, h2,
    c3_referenced_never_reported parse3 c3content c3tree false "os" rfl (Or.inl h2)⟩

/-- C4: with `dry_run` false and a non-empty record list, the resulting
file content is exactly the original lines whose 1-based line numbers are
not recorded, concatenated in order; splitting the result back into lines
recovers precisely those kept lines, each verbatim with its terminator. -/
theorem c4_rewrite_exact (content : List Char) (unused : List (Nat × List Char))
    (h : unused ≠ []) :
    remove_unused_imports content unused false
        = ((((readlines content).enumFrom 1).filter
            (fun p => decide (p.1 ∉ unused.map Prod.fst))).map Prod.snd).flatten
      ∧ readlines (remove_unused_imports content unused false)
          = (((readlines content).enumFrom 1).filter
              (fun p => decide (p.1 ∉ unused.map Prod.fst))).map Prod.snd :=
  ⟨remove_not_dry content unused h, remove_lines content unused h⟩

/-- C4 witness: the rewrite characterization at `c1content` with the
record for line 1. -/
theorem c4_witness :
    ([((1 : Nat), "import os".toList)] ≠ ([] : List (Nat × List Char)))
      ∧ (remove_unused_imports c1content [(1, "import os".toList)] false
          = ((((readlines c1content).enumFrom 1).filter
              (fun p => decide (p.1 ∉ ([((1 : Nat), "import os".toList)]).map
                Prod.fst))).map Prod.snd).flatten
        ∧ readlines (remove_unused_imports c1content [(1, "import os".toList)] false)
            = (((readlines c1content).enumFrom 1).filter
                (fun p => decide (p.1 ∉ ([((1 : Nat), "import os".toList)]).map
                  Prod.fst))).map Prod.snd) :=
  ⟨by decide, c4_rewrite_exact c1content [(1, "import os".toList)] (by decide)⟩

/-- C5: with `dry_run` true, `remove_unused_imports` leaves the file
content unchanged, whatever the record list. -/
theorem c5_dry_run_pure (content : List Char) (unused : List (Nat × List Char)) :
    remove_unused_imports content unused true = content := by
  unfold remove_unused_imports
  split
  · rfl
  · rfl

/-- C6: when the parser rejects the content (`SyntaxError` branch),
`find_unused_imports` returns the empty record list with a null tree, and
the full detection-plus-removal run leaves the file content unchanged;
all functions involved are total, so the run terminates normally. -/
theorem c6_syntax_error (parse : List Char → Option Node) (content : List Char)
    (dr agg : Bool) (hp : parse content = none) :
    find_unused_imports parse (some content) agg = ([], none)
      ∧ processFile parse content dr agg = content := by
  have h1 : find_unused_imports parse (some content) agg = ([], none) := by
    simp only [find_unused_imports, hp]
  refine ⟨h1, ?_⟩
  simp only [processFile, h1]
  rfl

/-- C6 witness: a parser that rejects `c6content`. -/
theorem c6_witness :
    parse6 c6content = none
      ∧ (find_unused_imports parse6 (some c6content) false = ([], none)
        ∧ processFile parse6 c6content false false = c6content) :=
  ⟨rfl, c6_syntax_error parse6 c6content false false rfl⟩

/-- C7: when the tree contains no import statement, the record list is
empty and detection followed by removal leaves the file content
unchanged (the empty-list early return performs no rewrite). -/
theorem c7_no_imports (parse : List Char → Option Node) (content : List Char)
    (tree : Node) (dr agg : Bool) (hp : parse content = some tree)
    (hno : ∀ n ∈ walkNodes tree, Node.isImport n = false) :
    (find_unused_imports parse (some content) agg).fst = []
      ∧ processFile parse content dr agg = content := by
  have h1 : (find_unused_imports parse (some content) agg).fst = [] := by
    simp only [find_unused_imports, hp]
    exact recordsOver_eq_nil content (collectAllNames tree) (walkNodes tree) hno
  refine ⟨h1, ?_⟩
  simp only [processFile, h1]
  rfl

/-- C7 witness: `c7content` has no import statements. -/
theorem c7_witness :
    parse7 c7content = some c7tree
      ∧ (∀ n ∈ walkNodes c7tree, Node.isImport n = false)
      ∧ ((find_unused_imports parse7 (some c7content) false).fst = []
        ∧ processFile parse7 c7content false false = c7content) := by
  have hno : ∀ n ∈ walkNodes c7tree, Node.isImport n = false := by
    rw [walk_c7]; decide
  exact ⟨rfl, hno, c7_no_imports parse7 c7content c7tree false false rfl hno⟩

/-- C8 counterexample: on `c8content` (`import a;b` on line 1, `import b`
on line 2) the first run removes the whole of line 1 — including the
reference `b` that kept line 2's import alive — so the second run reports
line 2's import as unused and removes it too: two runs do not equal one
run, and the second run does not report zero unused imports. -/
theorem c8_counterexample :
    processFile parse8 (processFile parse8 c8content false false) false false
        ≠ processFile parse8 c8content false false
      ∧ (find_unused_imports parse8
          (some (processFile parse8 c8content false false)) false).fst ≠ [] := by
  have hp1 : parse8 c8content = some c8tree := rfl
  have h1 : (find_unused_imports parse8 (some c8content) false).fst
      = [(1, "import a;b".toList)] := by
    simp only [find_unused_imports, hp1, collectAllNames]
    rw [walk_c8]
    decide
  have h2 : processFile parse8 c8content false false = c8once := by
    simp only [processFile, h1]
    decide
  have hp2 : parse8 c8once = some c8tree2 := rfl
  have h3 : (find_unused_imports parse8 (some c8once) false).fst
      = [(1, "import b".toList)] := by
    simp only [find_unused_imports, hp2, collectAllNames]
    rw [walk_c8b]
    decide
  have h4 : processFile parse8 c8once false false = [] := by
    simp only [processFile, h3]
    decide
  constructor
  · rw [h2, h4]
    decide
  · rw [h2, h3]
    decide

/-- C8 (amended): running the tool twice in non-dry-run mode yields the
same content as running it once, provided the first run was exhaustive,
i.e. the second run's detection reports zero unused imports; then the
second removal is the empty early return and changes nothing. -/
theorem c8_idempotent_when_exhaustive (parse : List Char → Option Node)
    (content : List Char) (agg : Bool)
    (h : (find_unused_imports parse
        (some (processFile parse content false agg)) agg).fst = []) :
    processFile parse (processFile parse content false agg) false agg
      = processFile parse content false agg := by
  show remove_unused_imports (processFile parse content false agg)
      (find_unused_imports parse
        (some (processFile parse content false agg)) agg).fst false
    = processFile parse content false agg
  rw [h]
  rfl

/-- C8 witness: on `c7content` (no imports) the first run changes nothing
and the second run reports zero unused imports, so two runs equal one. -/
theorem c8_witness :
    (find_unused_imports parse7
        (some (processFile parse7 c7content false false)) false).fst = []
      ∧ processFile parse7 (processFile parse7 c7content false false) false false
          = processFile parse7 c7content false false := by
  have hp : parse7 c7content = some c7tree := rfl
  have h1 : (find_unused_imports parse7 (some c7content) false).fst = [] := by
    simp only [find_unused_imports, hp, collectAllNames]
    rw [walk_c7]
    decide
  have hA : processFile parse7 c7content false false = c7content := by
    simp only [processFile, h1]
    rfl
  have hH : (find_unused_imports parse7
      (some (processFile parse7 c7content false false)) false).fst = [] := by
    rw [hA]
    exact h1
  exact ⟨hH, c8_idempotent_when_exhaustive parse7 c7content false hH⟩

/-- C9: the `aggressive` flag is accepted and never read, so detection
output is identical for both values of the flag, on every input. -/
theorem c9_aggressive_inert (parse : List Char → Option Node)
    (content? : Option (List Char)) :
    find_unused_imports parse content? true
      = find_unused_imports parse content? false := rfl

/-- C10: when one import statement binds several names on one physical
line and at least one of them (alias `a`) is unused while another (alias
`b`) is referenced, the statement's line is recorded (once per unused
name), no unused binding carries `b`'s effective name, and the non-dry
rewrite drops the entire physical line at that line number — removing
`b`'s binding along with `a`'s. -/
theorem c10_colocated_bindings_removed (parse : List Char → Option Node)
    (content : List Char) (tree : Node) (agg : Bool) (n : Node)
    (a b : ImportAlias)
    (hp : parse content = some tree)
    (hn : n ∈ walkNodes tree)
    (ha : a ∈ importNames n)
    (hb : b ∈ importNames n)
    (haU : effectiveName a ∉ collectAllNames tree)
    (hbU : effectiveName b ∈ collectAllNames tree) :
    (nodeLineno n, extractStatement content (nodeLineno n))
        ∈ (find_unused_imports parse (some content) agg).fst
      ∧ (∀ p ∈ unusedBindingsOf tree, p.2 ≠ effectiveName b)
      ∧ remove_unused_imports content
            (find_unused_imports parse (some content) agg).fst false
          = ((((readlines content).enumFrom 1).filter (fun p =>
                decide (p.1 ∉ ((find_unused_imports parse (some content) agg).fst).map
                  Prod.fst))).map Prod.snd).flatten
      ∧ ∀ p ∈ ((readlines content).enumFrom 1).filter (fun p =>
            decide (p.1 ∉ ((find_unused_imports parse (some content) agg).fst).map
              Prod.fst)),
          p.1 ≠ nodeLineno n := by
  have hrec : (nodeLineno n, extractStatement content (nodeLineno n))
      ∈ recordsOfNode content (collectAllNames tree) n := by
    cases n with
    | importNode ns L =>
        exact List.mem_filterMap.mpr ⟨a, ha, by simp [aliasRecord, haU, nodeLineno]⟩
    | importFrom m ns L =>
        exact List.mem_filterMap.mpr ⟨a, ha, by simp [aliasRecord, haU, nodeLineno]⟩
    | name i => exact absurd ha (by simp [importNames])
    | attr v at2 => exact absurd ha (by simp [importNames])
    | other cs => exact absurd ha (by simp [importNames])
  have h1 : (nodeLineno n, extractStatement content (nodeLineno n))
      ∈ (find_unused_imports parse (some content) agg).fst := by
    simp only [find_unused_imports, hp]
    exact mem_recordsOver_of hn hrec
  have hne : (find_unused_imports parse (some content) agg).fst ≠ [] :=
    List.ne_nil_of_mem h1
  refine ⟨h1, ?_, remove_not_dry content _ hne, ?_⟩
  · intro p hp2 hEq
    have hnot := bindingsOver_not_mem hp2
    rw [hEq] at hnot
    exact hnot hbU
  · intro p hpf hEq
    have hmf := List.mem_filter.mp hpf
    have hnotin : p.1 ∉ ((find_unused_imports parse (some content) agg).fst).map
        Prod.fst := of_decide_eq_true hmf.2
    apply hnotin
    rw [hEq]
    exact List.mem_map_of_mem Prod.fst h1

/-- C10 witness: `c10content` imports `os, sys` on line 1, uses `os` and
not `sys`; line 1 is recorded and the rewrite drops it whole. -/
theorem c10_witness :
    parse10 c10content = some c10tree
      ∧ Node.importNode [⟨"os", none⟩, ⟨"sys", none⟩] 1 ∈ walkNodes c10tree
      ∧ (⟨"sys", none⟩ : ImportAlias)
          ∈ importNames (Node.importNode [⟨"os", none⟩, ⟨"sys", none⟩] 1)
      ∧ (⟨"os", none⟩ : ImportAlias)
          ∈ importNames (Node.importNode [⟨"os", none⟩, ⟨"sys", none⟩] 1)
      ∧ effectiveName ⟨"sys", none⟩ ∉ collectAllNames c10tree
      ∧ effectiveName ⟨"os", none⟩ ∈ collectAllNames c10tree
      ∧ (nodeLineno (Node.importNode [⟨"os", none⟩, ⟨"sys", none⟩] 1),
          extractStatement c10content
            (nodeLineno (Node.importNode [⟨"os", none⟩, ⟨"sys", none⟩] 1)))
          ∈ (find_unused_imports parse10 (some c10content) false).fst := by
  have hn : Node.importNode [⟨"os", none⟩, ⟨"sys", none⟩] 1 ∈ walkNodes c10tree := by
    rw [walk_c10]; simp
  have haU : effectiveName ⟨"sys", none⟩ ∉ collectAllNames c10tree := by
    simp only [collectAllNames]
    rw [walk_c10]
    decide
  have hbU : effectiveName ⟨"os", none⟩ ∈ collectAllNames c10tree := by
    simp only [collectAllNames]
    rw [walk_c10]
    decide
  exact ⟨rfl, hn, by decide, by decide, haU, hbU,
    (c10_colocated_bindings_removed parse10 c10content c10tree false
      (Node.importNode [⟨"os", none⟩, ⟨"sys", none⟩] 1)
      ⟨"sys", none⟩ ⟨"os", none⟩ rfl hn (by decide) (by decide) haU hbU).1⟩
